import Mathlib

/-!
Verification of the Confucius agent orchestration core.

This development shallowly embeds the TypeScript source of the agent SDK:
the hierarchical working-memory manager (`src/sdk/memory`), the extension
registry with its tag scanner (`src/sdk/registry.ts`), the orchestrator run
loop (`src/sdk/orchestrator.ts`, hierarchical version), and the knowledge
base (`src/sdk/memory/knowledge-base.ts`).

Modelling conventions:
- JavaScript strings are `List Char` (`Str`); `Math.ceil(n / 4)` on string
  lengths is `(n + 3) / 4` on `Nat`.
- `new Date()` timestamps are opaque `Nat` values supplied by callers (a
  `now` argument, or a `clock` oracle indexed by iteration in the run loop).
- Logging calls are dropped; they do not affect state.
- `async`/`await` suspension points are sequentialized (the source is
  single-threaded with deterministic resumption), so stateful methods are
  state-passing functions.
- The LLM provider, the Architect's summarizer and extension `execute`
  bodies are external collaborators; they are oracles passed as function
  parameters.  A TypeScript function that can throw is modelled with
  `Except Str`.
-/

namespace Confucius

/-- JavaScript strings, modelled as lists of characters. -/
abbrev Str := List Char

/-- The whitespace class used by `String.prototype.trim` and by `\s` in the
tag-matching regex (ASCII part). -/
def isSpaceChar (c : Char) : Bool :=
  c = ' ' || c = '\t' || c = '\n' || c = '\r' || c = '\x0b' || c = '\x0c'

/-- `String.prototype.trim`: strip whitespace from both ends. -/
def trimStr (s : Str) : Str :=
  ((s.dropWhile isSpaceChar).reverse.dropWhile isSpaceChar).reverse

/-- `toLowerCase` on a string, character by character. -/
def lowerStr (s : Str) : Str := s.map Char.toLower

/-- Message roles (`types.ts`, `Message.role`). -/
inductive Role
  | system
  | user
  | assistant
  | tool
deriving DecidableEq, Repr

/-- Memory scopes (`types.ts`, `MemoryScope`). -/
inductive MemoryScope
  | session
  | entry
  | runnable
deriving DecidableEq, Repr

/-- A conversation message (`types.ts`, `Message`).  `toolName`, `timestamp`
and `scope` are optional in the source. -/
structure Message where
  role : Role
  content : Str
  toolName : Option Str := none
  timestamp : Option Nat := none
  scope : Option MemoryScope := none
deriving DecidableEq, Repr

/-- A note (`types.ts`, `Note`). -/
structure Note where
  path : Str
  content : Str
  updatedAt : Nat
  tags : List Str
  isHindsight : Option Bool := none
deriving DecidableEq, Repr

/-- Per-scope token counters (`working-memory.ts`, `HierarchicalMemory.tokenCounts`). -/
structure TokenCounts where
  session : Nat
  entry : Nat
  runnable : Nat
deriving DecidableEq, Repr

/-- The hierarchical memory state (`working-memory.ts`, `HierarchicalMemory`).
The `notes` JavaScript `Map` is an insertion-ordered association list. -/
structure HierarchicalMemory where
  session : List Message
  entry : List Message
  runnable : List Message
  tokenCounts : TokenCounts
  maxTokens : Nat
  notes : List (Str × Note)
deriving DecidableEq, Repr

namespace WorkingMemoryManager

/-- The constructor's fresh memory (`WorkingMemoryManager` constructor). -/
def emptyMemory (maxTokens : Nat) : HierarchicalMemory :=
  { session := []
    entry := []
    runnable := []
    tokenCounts := { session := 0, entry := 0, runnable := 0 }
    maxTokens := maxTokens
    notes := [] }

/-- `estimateTokens`: rough 4-characters-per-token estimate,
`Math.ceil(content.length / 4)`. -/
def estimateTokens (content : Str) : Nat :=
  (content.length + 3) / 4

/-- `getMessages()`: session ++ entry ++ runnable. -/
def getMessages (m : HierarchicalMemory) : List Message :=
  m.session ++ m.entry ++ m.runnable

/-- `getMessagesByScope(scope)`. -/
def getMessagesByScope (m : HierarchicalMemory) : MemoryScope → List Message
  | .session => m.session
  | .entry => m.entry
  | .runnable => m.runnable

/-- `getTotalTokenCount()`: sum of the three per-scope counters. -/
def getTotalTokenCount (m : HierarchicalMemory) : Nat :=
  m.tokenCounts.session + m.tokenCounts.entry + m.tokenCounts.runnable

/-- `getTokenCount(scope)`. -/
def getTokenCount (m : HierarchicalMemory) : MemoryScope → Nat
  | .session => m.tokenCounts.session
  | .entry => m.tokenCounts.entry
  | .runnable => m.tokenCounts.runnable

/-- Bump one scope's token counter. -/
def TokenCounts.bump (tc : TokenCounts) (scope : MemoryScope) (tokens : Nat) : TokenCounts :=
  match scope with
  | .session => { tc with session := tc.session + tokens }
  | .entry => { tc with entry := tc.entry + tokens }
  | .runnable => { tc with runnable := tc.runnable + tokens }

/-- `addMessage(message)`: route the message (defaulting scope to runnable and
stamping a timestamp) to its scope's list and bump that scope's counter by
`estimateTokens(message.content)`. -/
def addMessage (m : HierarchicalMemory) (now : Nat) (message : Message) : HierarchicalMemory :=
  let scope := message.scope.getD .runnable
  let messageWithMeta : Message :=
    { message with timestamp := some (message.timestamp.getD now), scope := some scope }
  let m' :=
    match scope with
    | .session => { m with session := m.session ++ [messageWithMeta] }
    | .entry => { m with entry := m.entry ++ [messageWithMeta] }
    | .runnable => { m with runnable := m.runnable ++ [messageWithMeta] }
  { m' with tokenCounts := TokenCounts.bump m'.tokenCounts scope (estimateTokens message.content) }

/-- `initializeSession(systemPrompt)`: add a system message to the session
scope, but skip (with only a warning logged) if the session scope is already
non-empty. -/
def initializeSession (m : HierarchicalMemory) (now : Nat) (systemPrompt : Str) :
    HierarchicalMemory :=
  if m.session.length > 0 then m
  else addMessage m now { role := .system, content := systemPrompt, scope := some .session }

/-- `setEntry(task)`: clear the entry scope and its counter, then add the task
as a user message in the entry scope. -/
def setEntry (m : HierarchicalMemory) (now : Nat) (task : Str) : HierarchicalMemory :=
  let m' := { m with entry := [], tokenCounts := { m.tokenCounts with entry := 0 } }
  addMessage m' now { role := .user, content := task, scope := some .entry }

/-- `addToRunnable(message)`: add with scope forced to runnable. -/
def addToRunnable (m : HierarchicalMemory) (now : Nat) (message : Message) :
    HierarchicalMemory :=
  addMessage m now { message with scope := some .runnable }

/-- `clearRunnable()`. -/
def clearRunnable (m : HierarchicalMemory) : HierarchicalMemory :=
  { m with runnable := [], tokenCounts := { m.tokenCounts with runnable := 0 } }

/-- `clearScope(scope)` (clearing session is logged as not recommended but
performed). -/
def clearScope (m : HierarchicalMemory) : MemoryScope → HierarchicalMemory
  | .session => { m with session := [], tokenCounts := { m.tokenCounts with session := 0 } }
  | .entry => { m with entry := [], tokenCounts := { m.tokenCounts with entry := 0 } }
  | .runnable => clearRunnable m

/-- `needsCompression(threshold)`: compares the total token count (all three
scopes) against the threshold. -/
def needsCompression (m : HierarchicalMemory) (threshold : Nat) : Bool :=
  getTotalTokenCount m > threshold

/-- `getRunnableTokenCount()`. -/
def getRunnableTokenCount (m : HierarchicalMemory) : Nat :=
  m.tokenCounts.runnable

/-- The token total of a message list, as computed by the source's
`reduce((sum, m) => sum + this.estimateTokens(m.content), 0)`. -/
def sumTokens (msgs : List Message) : Nat :=
  msgs.foldl (fun sum msg => sum + estimateTokens msg.content) 0

/-- `compressRunnable(compressedMessages)`: total replacement of the runnable
scope (forcing scope to runnable on every message) with the counter recomputed
from the new messages. -/
def compressRunnable (m : HierarchicalMemory) (compressedMessages : List Message) :
    HierarchicalMemory :=
  { m with
    runnable := compressedMessages.map (fun msg => { msg with scope := some .runnable })
    tokenCounts := { m.tokenCounts with runnable := sumTokens compressedMessages } }

/-- `getRunnableMessages()`. -/
def getRunnableMessages (m : HierarchicalMemory) : List Message :=
  m.runnable

/-- `getNote(path)` (JavaScript `Map.get`). -/
def getNote (m : HierarchicalMemory) (path : Str) : Option Note :=
  (m.notes.find? (fun p => p.1 == path)).map (·.2)

/-- `setNote(note)` (JavaScript `Map.set`: overwrite in place or append). -/
def setNote (m : HierarchicalMemory) (now : Nat) (note : Note) : HierarchicalMemory :=
  let stamped := { note with updatedAt := now }
  if (m.notes.find? (fun p => p.1 == note.path)).isSome then
    { m with notes := m.notes.map (fun p => if p.1 == note.path then (p.1, stamped) else p) }
  else
    { m with notes := m.notes ++ [(note.path, stamped)] }

end WorkingMemoryManager

open WorkingMemoryManager

namespace ConfuciusOrchestrator

/-- The tag prepended to the compression summary message
(`orchestrator.ts`, `compressContext`). -/
def prevSummaryPrefix : Str := "[PREVIOUS CONTEXT SUMMARY]:\n".data

/-- `ConfuciusOrchestrator.compressContext`: if the runnable scope has more
than 2 messages and a non-empty head to summarize, replace the runnable scope
by one Architect summary message followed by the 4 most recent messages.
The Architect's `summarize` (which never throws: it falls back to a heuristic
summary) is an oracle parameter. -/
def compressContext (summarize : List Message → Str) (m : HierarchicalMemory) (now : Nat) :
    HierarchicalMemory :=
  let runnableMessages := getRunnableMessages m
  if runnableMessages.length ≤ 2 then m
  else
    let keepRecent := 4
    let toSummarize := runnableMessages.take (runnableMessages.length - keepRecent)
    let toKeep := runnableMessages.drop (runnableMessages.length - keepRecent)
    if toSummarize.length = 0 then m
    else
      let summary := summarize toSummarize
      let summaryMessage : Message :=
        { role := .system
          content := prevSummaryPrefix ++ summary
          timestamp := some now
          scope := some .runnable }
      compressRunnable m (summaryMessage :: toKeep)

/-- The summary message `compressContext` builds when it compresses a memory
`m` (runnable scope longer than the keep-recent window of 4). -/
def compressionSummaryMessage (summarize : List Message → Str) (m : HierarchicalMemory)
    (now : Nat) : Message :=
  { role := .system
    content := prevSummaryPrefix ++ summarize (m.runnable.take (m.runnable.length - 4))
    timestamp := some now
    scope := some .runnable }

end ConfuciusOrchestrator

/-! ### Token accounting lemmas -/

theorem foldl_add_eq (e : Message → Nat) (a : Nat) (l : List Message) :
    l.foldl (fun s msg => s + e msg) a = a + l.foldl (fun s msg => s + e msg) 0 := by
  induction l generalizing a with
  | nil => simp
  | cons x xs ih => rw [List.foldl_cons, List.foldl_cons, ih, ih (0 + e x)]; omega

theorem sumTokens_cons (x : Message) (xs : List Message) :
    sumTokens (x :: xs) = estimateTokens x.content + sumTokens xs := by
  show List.foldl _ _ (x :: xs) = _
  rw [List.foldl_cons, foldl_add_eq]
  show 0 + estimateTokens x.content + sumTokens xs = _
  omega

theorem sumTokens_append (xs ys : List Message) :
    sumTokens (xs ++ ys) = sumTokens xs + sumTokens ys := by
  induction xs with
  | nil => simp [sumTokens]
  | cons x xs ih => rw [List.cons_append, sumTokens_cons, sumTokens_cons, ih, Nat.add_assoc]

theorem sumTokens_map_scope (s : Option MemoryScope) (l : List Message) :
    sumTokens (l.map (fun msg => { msg with scope := s })) = sumTokens l := by
  induction l with
  | nil => rfl
  | cons x xs ih => rw [List.map_cons, sumTokens_cons, sumTokens_cons, ih]

/-- The per-scope counter invariant of the hierarchical memory: every scope's
counter equals the sum of the per-message estimates over that scope. -/
def tokenInvariant (m : HierarchicalMemory) : Prop :=
  m.tokenCounts.session = sumTokens m.session ∧
  m.tokenCounts.entry = sumTokens m.entry ∧
  m.tokenCounts.runnable = sumTokens m.runnable

/-- States reachable through the memory manager's public mutating operations. -/
inductive Reachable : HierarchicalMemory → Prop
  | empty (maxTokens : Nat) : Reachable (emptyMemory maxTokens)
  | initSession {m : HierarchicalMemory} (now : Nat) (prompt : Str) :
      Reachable m → Reachable (initializeSession m now prompt)
  | entryStep {m : HierarchicalMemory} (now : Nat) (task : Str) :
      Reachable m → Reachable (setEntry m now task)
  | addMessageStep {m : HierarchicalMemory} (now : Nat) (msg : Message) :
      Reachable m → Reachable (addMessage m now msg)
  | addToRunnableStep {m : HierarchicalMemory} (now : Nat) (msg : Message) :
      Reachable m → Reachable (addToRunnable m now msg)
  | compressStep {m : HierarchicalMemory} (msgs : List Message) :
      Reachable m → Reachable (compressRunnable m msgs)
  | clearStep {m : HierarchicalMemory} (scope : MemoryScope) :
      Reachable m → Reachable (clearScope m scope)

theorem tokenInvariant_addMessage {m : HierarchicalMemory} (now : Nat) (msg : Message)
    (h : tokenInvariant m) : tokenInvariant (addMessage m now msg) := by
  obtain ⟨h1, h2, h3⟩ := h
  unfold addMessage tokenInvariant
  cases hs : msg.scope.getD .runnable <;>
    simp [TokenCounts.bump, hs, sumTokens_append, sumTokens_cons, sumTokens, h1, h2, h3]

theorem tokenInvariant_compressRunnable {m : HierarchicalMemory} (msgs : List Message)
    (h : tokenInvariant m) : tokenInvariant (compressRunnable m msgs) := by
  obtain ⟨h1, h2, h3⟩ := h
  exact ⟨h1, h2, (sumTokens_map_scope _ _).symm⟩

theorem tokenInvariant_reachable {m : HierarchicalMemory} (h : Reachable m) :
    tokenInvariant m := by
  induction h with
  | empty maxTokens => exact ⟨rfl, rfl, rfl⟩
  | initSession now prompt _ ih =>
      unfold initializeSession
      split
      · exact ih
      · exact tokenInvariant_addMessage now _ ih
  | entryStep now task _ ih =>
      exact tokenInvariant_addMessage now _ ⟨ih.1, rfl, ih.2.2⟩
  | addMessageStep now msg _ ih => exact tokenInvariant_addMessage now msg ih
  | addToRunnableStep now msg _ ih => exact tokenInvariant_addMessage now _ ih
  | compressStep msgs _ ih => exact tokenInvariant_compressRunnable msgs ih
  | clearStep scope _ ih =>
      cases scope with
      | session => exact ⟨rfl, ih.2.1, ih.2.2⟩
      | entry => exact ⟨ih.1, rfl, ih.2.2⟩
      | runnable => exact ⟨ih.1, ih.2.1, rfl⟩

/-- C5: in every reachable state of the hierarchical working memory, each
scope's token counter equals the sum of the deterministic per-message
estimate `estimateTokens` (i.e. `Math.ceil(content.length / 4)`) over that
scope's messages, and the total token count reported for the whole memory is
the sum of the three per-scope counters. -/
theorem c5_token_counters_invariant (m : HierarchicalMemory) (h : Reachable m) :
    m.tokenCounts.session = sumTokens m.session ∧
    m.tokenCounts.entry = sumTokens m.entry ∧
    m.tokenCounts.runnable = sumTokens m.runnable ∧
    getTotalTokenCount m =
      m.tokenCounts.session + m.tokenCounts.entry + m.tokenCounts.runnable := by
  obtain ⟨h1, h2, h3⟩ := tokenInvariant_reachable h
  exact ⟨h1, h2, h3, rfl⟩

/-- A concrete reachable memory used by witnesses. -/
def witnessMemory : HierarchicalMemory :=
  addToRunnable
    (setEntry
      (initializeSession (emptyMemory 100000) 0 ("You are an agent".data))
      1 ("Fix the bug".data))
    2 { role := .assistant, content := "Looking into it".data }

theorem c5_token_counters_invariant_witness :
    witnessMemory.tokenCounts.session = sumTokens witnessMemory.session ∧
    witnessMemory.tokenCounts.entry = sumTokens witnessMemory.entry ∧
    witnessMemory.tokenCounts.runnable = sumTokens witnessMemory.runnable ∧
    getTotalTokenCount witnessMemory =
      witnessMemory.tokenCounts.session + witnessMemory.tokenCounts.entry +
        witnessMemory.tokenCounts.runnable :=
  c5_token_counters_invariant witnessMemory
    (Reachable.addToRunnableStep 2 _
      (Reachable.entryStep 1 _
        (Reachable.initSession 0 _ (Reachable.empty 100000))))

/-! ### C1: session-scope write-once -/

/-- A session memory already holding its system prompt. -/
def c1mem : HierarchicalMemory :=
  initializeSession (emptyMemory 100000) 0 ("You are an agent".data)

/-- A message-adding operation that targets the session scope. -/
def c1sessionMsg : Message :=
  { role := .user, content := "late write".data, scope := some MemoryScope.session }

/-- C1 counterexample: after the session scope has been initialized,
`addMessage` with scope `session` is NOT a no-op on the session scope — the
session message list grows from 1 to 2 messages.  Only `initializeSession`
itself is guarded. -/
theorem c1_counterexample :
    c1mem.session.length = 1 ∧
    (addMessage c1mem 1 c1sessionMsg).session.length = 2 := by
  constructor <;> rfl

/-- C1 (amended): `initializeSession` is strictly write-once — once the
session scope is non-empty a later `initializeSession` call leaves the memory
unchanged (the source only logs a warning) — but a message-adding operation
that targets the session scope (`addMessage` with scope `session`) does
append to the session scope. -/
theorem c1_session_write_once (m : HierarchicalMemory) (now : Nat) (prompt : Str)
    (h : m.session ≠ []) :
    initializeSession m now prompt = m ∧
    ∀ (now' : Nat) (msg : Message), msg.scope = some MemoryScope.session →
      (addMessage m now' msg).session.length = m.session.length + 1 := by
  constructor
  · unfold initializeSession
    rw [if_pos]
    simpa [Nat.pos_iff_ne_zero] using List.length_pos.mpr h
  · intro now' msg hs
    unfold addMessage
    simp [hs]

theorem c1_session_write_once_witness :
    initializeSession c1mem 5 ("other prompt".data) = c1mem ∧
    (addMessage c1mem 1 c1sessionMsg).session.length = c1mem.session.length + 1 := by
  have h := c1_session_write_once c1mem 5 ("other prompt".data) (by decide)
  exact ⟨h.1, h.2 1 c1sessionMsg (by decide)⟩

/-! ### C6 and C7: compression shape and frame -/

theorem scope_update_self {msg : Message} (h : msg.scope = some MemoryScope.runnable) :
    { msg with scope := some MemoryScope.runnable } = msg := by
  cases msg
  simp_all

theorem map_scope_id (l : List Message)
    (h : ∀ msg ∈ l, msg.scope = some MemoryScope.runnable) :
    l.map (fun msg => { msg with scope := some MemoryScope.runnable }) = l := by
  induction l with
  | nil => rfl
  | cons x xs ih =>
      rw [List.map_cons, scope_update_self (h x (by simp)),
        ih (fun m hm => h m (by simp [hm]))]

/-- C6: compressing a runnable scope of N messages with N greater than the
keep-recent window (4) leaves exactly 1 + 4 messages: the single summary
message (role system, tagged as a previous-context summary) first, followed by
the 4 most recent original messages in their original order. -/
theorem c6_compression_shape (summarize : List Message → Str) (m : HierarchicalMemory)
    (now : Nat) (hlen : 4 < m.runnable.length)
    (hscope : ∀ msg ∈ m.runnable, msg.scope = some MemoryScope.runnable) :
    (ConfuciusOrchestrator.compressContext summarize m now).runnable =
      ConfuciusOrchestrator.compressionSummaryMessage summarize m now ::
        m.runnable.drop (m.runnable.length - 4) ∧
    (ConfuciusOrchestrator.compressContext summarize m now).runnable.length = 1 + 4 := by
  have h2 : ¬ (m.runnable.length ≤ 2) := by omega
  have htk : ¬ ((m.runnable.take (m.runnable.length - 4)).length = 0) := by
    rw [List.length_take]
    omega
  have key : (ConfuciusOrchestrator.compressContext summarize m now).runnable =
      ConfuciusOrchestrator.compressionSummaryMessage summarize m now ::
        m.runnable.drop (m.runnable.length - 4) := by
    unfold ConfuciusOrchestrator.compressContext getRunnableMessages
    rw [if_neg h2, if_neg htk]
    unfold compressRunnable
    simp only [List.map_cons]
    rw [map_scope_id _ (fun msg hm => hscope msg (List.mem_of_mem_drop hm))]
    rfl
  refine ⟨key, ?_⟩
  rw [key]
  simp only [List.length_cons, List.length_drop]
  omega

/-- A concrete memory with six runnable messages. -/
def c6mem : HierarchicalMemory :=
  { session := []
    entry := []
    runnable :=
      [{ role := .assistant, content := "one".data, scope := some .runnable },
       { role := .tool, content := "two".data, scope := some .runnable },
       { role := .assistant, content := "three".data, scope := some .runnable },
       { role := .tool, content := "four".data, scope := some .runnable },
       { role := .assistant, content := "five".data, scope := some .runnable },
       { role := .tool, content := "six".data, scope := some .runnable }]
    tokenCounts := { session := 0, entry := 0, runnable := 6 }
    maxTokens := 0
    notes := [] }

theorem c6_compression_shape_witness :
    (ConfuciusOrchestrator.compressContext (fun _ => "digest".data) c6mem 9).runnable =
      ConfuciusOrchestrator.compressionSummaryMessage (fun _ => "digest".data) c6mem 9 ::
        c6mem.runnable.drop (c6mem.runnable.length - 4) ∧
    (ConfuciusOrchestrator.compressContext (fun _ => "digest".data) c6mem 9).runnable.length =
      1 + 4 :=
  c6_compression_shape (fun _ => "digest".data) c6mem 9 (by decide) (by decide)

/-- C7: the compression operation never modifies the session or entry scopes
(messages and token counters are unchanged), and on a runnable scope of at
most 2 messages it is a complete no-op (the memory is returned unchanged, all
scopes and counters included). -/
theorem c7_compression_frame (summarize : List Message → Str) (m : HierarchicalMemory)
    (now : Nat) :
    ((ConfuciusOrchestrator.compressContext summarize m now).session = m.session ∧
     (ConfuciusOrchestrator.compressContext summarize m now).entry = m.entry ∧
     (ConfuciusOrchestrator.compressContext summarize m now).tokenCounts.session =
       m.tokenCounts.session ∧
     (ConfuciusOrchestrator.compressContext summarize m now).tokenCounts.entry =
       m.tokenCounts.entry) ∧
    (m.runnable.length ≤ 2 → ConfuciusOrchestrator.compressContext summarize m now = m) := by
  by_cases h2 : m.runnable.length ≤ 2
  · have e : ConfuciusOrchestrator.compressContext summarize m now = m := by
      unfold ConfuciusOrchestrator.compressContext getRunnableMessages
      rw [if_pos h2]
    rw [e]
    exact ⟨⟨rfl, rfl, rfl, rfl⟩, fun _ => rfl⟩
  · by_cases h0 : (m.runnable.take (m.runnable.length - 4)).length = 0
    · have e : ConfuciusOrchestrator.compressContext summarize m now = m := by
        unfold ConfuciusOrchestrator.compressContext getRunnableMessages
        rw [if_neg h2, if_pos h0]
      rw [e]
      exact ⟨⟨rfl, rfl, rfl, rfl⟩, fun _ => rfl⟩
    · have e : ConfuciusOrchestrator.compressContext summarize m now =
          compressRunnable m
            (ConfuciusOrchestrator.compressionSummaryMessage summarize m now ::
              m.runnable.drop (m.runnable.length - 4)) := by
        unfold ConfuciusOrchestrator.compressContext getRunnableMessages
        rw [if_neg h2, if_neg h0]
        rfl
      rw [e]
      exact ⟨⟨rfl, rfl, rfl, rfl⟩, fun hc => absurd hc h2⟩

/-! ### Knowledge base (`knowledge-base.ts`) -/

namespace KnowledgeBase

/-- The backing `.ralph/knowledge.md` file as the store observes it: missing
(ENOENT), unreadable for any other reason, or present with text. -/
inductive FileState
  | absent
  | unreadable
  | content (text : Str)
deriving DecidableEq, Repr

/-- `loadRules()`: the file's text; a missing file (ENOENT means first run)
and any other read failure both degrade to the empty string. -/
def loadRules : FileState → Str
  | .absent => []
  | .unreadable => []
  | .content text => text

/-- The header created on first write (`addRule`). -/
def knowledgeHeader : Str :=
  "# Confucius Knowledge Base\n\nLearned rules and best practices from previous sessions.\n".data

/-- The timestamped rule entry `addRule` appends. -/
def ruleEntry (timestamp rule : Str) : Str :=
  "\n## Rule (".data ++ timestamp ++ ")\n".data ++ trimStr rule ++ "\n".data

/-- What the guarded re-read inside `addRule` yields: the text, or the empty
string when the file is missing or unreadable. -/
def existingText : FileState → Str
  | .content text => text
  | _ => []

/-- `addRule(rule)`: skip (with a warning) empty or whitespace-only rules;
otherwise append a timestamped entry to the existing content, prefixing the
header when the existing content is blank, and write the file.  The ISO
timestamp string is an oracle parameter. -/
def addRule (fs : FileState) (timestamp : Str) (rule : Str) : FileState :=
  if (trimStr rule).length = 0 then fs
  else
    let existingContent := existingText fs
    let entry := ruleEntry timestamp rule
    let newContent :=
      if (trimStr existingContent).length = 0 then knowledgeHeader ++ entry
      else existingContent ++ entry
    .content newContent

end KnowledgeBase

/-- Substring test on embedded strings (`String.prototype.includes`). -/
def containsSubstr (hay needle : Str) : Bool :=
  hay.tails.any (fun t => needle.isPrefixOf t)

theorem containsSubstr_append (a needle b : Str) :
    containsSubstr (a ++ (needle ++ b)) needle = true := by
  unfold containsSubstr
  rw [List.any_eq_true]
  refine ⟨needle ++ b, ?_, ?_⟩
  · rw [List.mem_tails]
    exact ⟨a, rfl⟩
  · rw [List.isPrefixOf_iff_prefix]
    exact List.prefix_append needle b

/-- The concrete padded rule of the C9 counterexample. -/
def c9rule : Str := " x".data

/-- C9 counterexample: for the non-empty, non-whitespace rule " x" (leading
blank), `addRule` stores the trimmed text, so `loadRules` of the resulting
store does not contain the original rule string as a substring. -/
theorem c9_counterexample :
    (trimStr c9rule).length ≠ 0 ∧
    containsSubstr
      (KnowledgeBase.loadRules
        (KnowledgeBase.addRule KnowledgeBase.FileState.absent ("2026-02-03".data) c9rule))
      c9rule = false := by
  constructor
  · decide
  · decide

/-- C9 (amended): `loadRules` on a store whose backing file does not exist
returns the empty string, and any other read failure also yields the empty
string rather than throwing; after `addRule r` succeeds for a non-empty,
non-whitespace rule `r`, `loadRules` returns a string containing the
*trimmed* `r` as a substring (the entry is stored trimmed, so `r` itself
appears verbatim exactly when it carries no surrounding whitespace); and
`addRule` of an empty or whitespace-only rule leaves the store unchanged. -/
theorem c9_knowledge_store (fs : KnowledgeBase.FileState) (ts r : Str)
    (h : (trimStr r).length ≠ 0) :
    KnowledgeBase.loadRules KnowledgeBase.FileState.absent = [] ∧
    KnowledgeBase.loadRules KnowledgeBase.FileState.unreadable = [] ∧
    containsSubstr
      (KnowledgeBase.loadRules (KnowledgeBase.addRule fs ts r)) (trimStr r) = true ∧
    ∀ r', (trimStr r').length = 0 → KnowledgeBase.addRule fs ts r' = fs := by
  refine ⟨rfl, rfl, ?_, ?_⟩
  · unfold KnowledgeBase.addRule
    rw [if_neg h]
    show containsSubstr
      (KnowledgeBase.loadRules
        (KnowledgeBase.FileState.content
          (if (trimStr (KnowledgeBase.existingText fs)).length = 0 then
            KnowledgeBase.knowledgeHeader ++ KnowledgeBase.ruleEntry ts r
          else KnowledgeBase.existingText fs ++ KnowledgeBase.ruleEntry ts r)))
      (trimStr r) = true
    by_cases he : (trimStr (KnowledgeBase.existingText fs)).length = 0
    · rw [if_pos he]
      have key := containsSubstr_append
        (KnowledgeBase.knowledgeHeader ++ ("\n## Rule (".data ++ ts ++ ")\n".data))
        (trimStr r) ("\n".data)
      simpa [KnowledgeBase.loadRules, KnowledgeBase.ruleEntry, List.append_assoc] using key
    · rw [if_neg he]
      have key := containsSubstr_append
        (KnowledgeBase.existingText fs ++ ("\n## Rule (".data ++ ts ++ ")\n".data))
        (trimStr r) ("\n".data)
      simpa [KnowledgeBase.loadRules, KnowledgeBase.ruleEntry, List.append_assoc] using key
  · intro r' h'
    unfold KnowledgeBase.addRule
    rw [if_pos h']

theorem c9_knowledge_store_witness :
    containsSubstr
      (KnowledgeBase.loadRules
        (KnowledgeBase.addRule KnowledgeBase.FileState.absent ("2026-02-03".data)
          ("Always check X".data)))
      (trimStr ("Always check X".data)) = true ∧
    KnowledgeBase.addRule KnowledgeBase.FileState.absent ("2026-02-03".data) ("   ".data) =
      KnowledgeBase.FileState.absent := by
  have h := c9_knowledge_store KnowledgeBase.FileState.absent ("2026-02-03".data)
    ("Always check X".data) (by decide)
  exact ⟨h.2.2.1, h.2.2.2 ("   ".data) (by decide)⟩

theorem c7_compression_frame_witness :
    (ConfuciusOrchestrator.compressContext (fun _ => []) c1mem 3).session = c1mem.session ∧
    (ConfuciusOrchestrator.compressContext (fun _ => []) c1mem 3).entry = c1mem.entry ∧
    ConfuciusOrchestrator.compressContext (fun _ => []) c1mem 3 = c1mem := by
  have h := c7_compression_frame (fun _ => []) c1mem 3
  exact ⟨h.1.1, h.1.2.1, h.2 (by decide)⟩

/-! ### Extension system (`types.ts`, `registry.ts`) -/

/-- A parsed action (`types.ts`, `ParsedAction`); parameter values are
modelled as strings. -/
structure ParsedAction where
  tool : Str
  parameters : List (Str × Str)
  rawContent : Option Str := none
deriving DecidableEq, Repr

/-- A structured extension error (`types.ts`, `ExtensionError`). -/
structure ExtensionError where
  code : Str
  message : Str
  recoverable : Bool
deriving DecidableEq, Repr

/-- The out-of-band metadata an execution result may carry; the finish
extension sets `terminate`, `reason` and `finalMessage`. -/
structure ResultMetadata where
  terminate : Bool := false
  reason : Option Str := none
  finalMessage : Option Str := none
deriving DecidableEq, Repr

/-- An execution result (`types.ts`, `ExecutionResult`); artifacts are kept
as opaque identifiers. -/
structure ExecutionResult where
  success : Bool
  output : Str
  userOutput : Option Str := none
  artifacts : List Str := []
  error : Option ExtensionError := none
  metadata : Option ResultMetadata := none
deriving DecidableEq, Repr

/-- The outcome of an extension's `parse`, which may throw, return null, or
return an action. -/
inductive ParseOutcome
  | thrown (err : Str)
  | nullResult
  | ok (action : ParsedAction)

/-- An extension (`types.ts`, `IExtension`).  `parse` and `execute` are the
extension's own code, taken as oracles.  `execute` reaches the memory only
through the run context's mediated accessors, so it is modelled as also
transforming the hierarchical memory; a thrown error is `Except.error`.
The optional hooks may throw; the registry catches that. -/
structure IExtension where
  name : Str
  description : Str
  triggerTag : Str
  parse : Str → ParseOutcome
  execute : ParsedAction → HierarchicalMemory → Except Str ExecutionResult × HierarchicalMemory
  onInputMessages : Option (List Message → Except Str (List Message)) := none
  onLLMOutput : Option (Str → Except Str Str) := none
  signalsContinuation : Option Bool := none

/-- Lookup in an insertion-ordered association list (JavaScript `Map.get`). -/
def mapGet {α : Type} (l : List (Str × α)) (k : Str) : Option α :=
  (l.find? (fun p => p.1 == k)).map (·.2)

/-- The registry state (`registry.ts`): extensions keyed by name and by
trigger tag, both in registration order. -/
structure ExtensionRegistry where
  extensions : List (Str × IExtension)
  tagToExtension : List (Str × IExtension)

/-- The freshly constructed registry. -/
def ExtensionRegistry.empty : ExtensionRegistry :=
  { extensions := [], tagToExtension := [] }

/-- `register(extension)`: throws on a duplicate name or trigger tag,
otherwise records the extension under both keys. -/
def ExtensionRegistry.register (reg : ExtensionRegistry) (ext : IExtension) :
    Except Str ExtensionRegistry :=
  if (mapGet reg.extensions ext.name).isSome then
    Except.error ("Extension with name already registered: ".data ++ ext.name)
  else if (mapGet reg.tagToExtension ext.triggerTag).isSome then
    Except.error ("Trigger tag already registered: ".data ++ ext.triggerTag)
  else
    Except.ok
      { extensions := reg.extensions ++ [(ext.name, ext)]
        tagToExtension := reg.tagToExtension ++ [(ext.triggerTag, ext)] }

/-- `listTags()`: registered trigger tags in registration order. -/
def listTags (reg : ExtensionRegistry) : List Str :=
  reg.tagToExtension.map (·.1)

/-! The tag scanner.  `parseOutput` builds the regex
`<(tag1|tag2|...)(?:\s[^>]*)?>([\s\S]*?)<\/\1>` with flags `gi` and walks the
text with `regex.exec`.  The scanner below embeds that regex's backtracking
semantics directly: at each position, `<` followed by the leftmost alternation
member that completes a full match (ASCII-case-insensitive tag name, optional
whitespace-led attribute block, `>`, shortest content closed by the
case-insensitive backreference `</\1>`) wins, and scanning resumes after the
match (`lastIndex`), yielding non-overlapping left-to-right matches. -/

/-- Case-insensitive (ASCII) test that `pat` is a prefix of `s`. -/
def ciPrefix (pat s : Str) : Bool :=
  lowerStr (s.take pat.length) == lowerStr pat

/-- The regex fragment `(?:\s[^>]*)?>` applied right after the tag name:
either an immediate `>`, or whitespace, a run of non-`>` characters and `>`.
Returns the remainder after `>`. -/
def matchAttrClose : Str → Option Str
  | [] => none
  | c :: rest =>
    if c = '>' then some rest
    else if isSpaceChar c then
      match rest.dropWhile (fun d => d != '>') with
      | d :: rest' => if d = '>' then some rest' else none
      | [] => none
    else none

/-- The non-greedy `([\s\S]*?)` followed by the closing tag `closing` (matched
case-insensitively, as the backreference is under the `i` flag): the shortest
content such that `closing` follows, with the remainder after `closing`. -/
def findClose (closing : Str) : Str → Option (Str × Str)
  | [] => none
  | c :: rest =>
    if ciPrefix closing (c :: rest) then some ([], (c :: rest).drop closing.length)
    else
      match findClose closing rest with
      | some (content, after) => some (c :: content, after)
      | none => none

/-- Try one alternation member `t` at `s` (the text right after `<`): returns
the captured tag text (as written in the input), the captured content, and the
remainder after the whole match. -/
def tryTag (t : Str) (s : Str) : Option (Str × Str × Str) :=
  if ciPrefix t s then
    match matchAttrClose (s.drop t.length) with
    | none => none
    | some contentStart =>
      match findClose ('<' :: '/' :: (s.take t.length ++ ['>'])) contentStart with
      | none => none
      | some (content, after) => some (s.take t.length, content, after)
  else none

/-- Try the alternation members in registration order; the leftmost member
that yields a complete match wins (regex alternation). -/
def tryTags : List Str → Str → Option (Str × Str × Str)
  | [], _ => none
  | t :: ts, s =>
    match tryTag t s with
    | some r => some r
    | none => tryTags ts s

/-- One match as `regex.exec` reports it: captured tag name (group 1),
captured content (group 2), and the span [start, stop) of the full match. -/
structure TagMatch where
  tagText : Str
  content : Str
  start : Nat
  stop : Nat
deriving DecidableEq, Repr

/-- The successive non-overlapping matches of the `gi`-regex, left to right
(`regex.exec` resuming at `lastIndex`).  `pos` is the absolute position of
`s`'s head; the fuel argument (any bound of `s.length`, supplied as
`output.length` at top level) makes the recursion structural. -/
def scanAux (tags : List Str) : Nat → Str → Nat → List TagMatch
  | 0, _, _ => []
  | _ + 1, [], _ => []
  | fuel + 1, c :: rest, pos =>
    if c = '<' then
      match tryTags tags rest with
      | some (captured, content, after) =>
        { tagText := captured, content := content, start := pos
          stop := pos + ((c :: rest).length - after.length) } ::
          scanAux tags fuel after (pos + ((c :: rest).length - after.length))
      | none => scanAux tags fuel rest (pos + 1)
    else scanAux tags fuel rest (pos + 1)

/-- All matches of the registered-tag regex over `output`. -/
def scanMatches (tags : List Str) (output : Str) : List TagMatch :=
  scanAux tags output.length output 0

/-- The body of the `while ((match = regex.exec(output)) !== null)` loop for
one match: look the lowercased captured tag up in `tagToExtension` and run
that extension's `parse` on the trimmed content.  A tag with no registered
extension contributes nothing; a `parse` that throws or returns null is
dropped (with a logged warning). -/
def resolveMatch (reg : ExtensionRegistry) (m : TagMatch) :
    Option (IExtension × ParsedAction) :=
  match mapGet reg.tagToExtension (lowerStr m.tagText) with
  | none => none
  | some ext =>
    match ext.parse (trimStr m.content) with
    | ParseOutcome.ok action => some (ext, action)
    | _ => none

/-- `parseOutput(output)`: no registered tags yields no actions; otherwise
fold every successive regex match through lookup and parse, collecting the
(extension, action) pairs in match order. -/
def parseOutput (reg : ExtensionRegistry) (output : Str) :
    List (IExtension × ParsedAction) :=
  let tags := listTags reg
  if tags.isEmpty then []
  else (scanMatches tags output).filterMap (resolveMatch reg)

/-! ### Scanner lemmas -/

theorem matchAttrClose_length {s r : Str} (h : matchAttrClose s = some r) :
    r.length < s.length := by
  match s with
  | [] => simp [matchAttrClose] at h
  | c :: rest =>
    simp only [matchAttrClose] at h
    by_cases h1 : c = '>'
    · rw [if_pos h1] at h
      cases h
      simp
    · rw [if_neg h1] at h
      by_cases h2 : isSpaceChar c = true
      · rw [if_pos h2] at h
        cases hdw : rest.dropWhile (fun d => d != '>') with
        | nil => rw [hdw] at h; exact absurd h (by simp)
        | cons d rest' =>
            rw [hdw] at h
            dsimp only at h
            by_cases h3 : d = '>'
            · rw [if_pos h3] at h
              cases h
              have hle : (rest.dropWhile (fun d => d != '>')).length ≤ rest.length :=
                (List.dropWhile_suffix _).length_le
              rw [hdw] at hle
              simp only [List.length_cons] at hle ⊢
              omega
            · rw [if_neg h3] at h
              exact absurd h (by simp)
      · rw [if_neg h2] at h
        exact absurd h (by simp)

theorem ciPrefix_length {pat s : Str} (h : ciPrefix pat s = true) :
    pat.length ≤ s.length := by
  unfold ciPrefix at h
  have he : lowerStr (s.take pat.length) = lowerStr pat := eq_of_beq h
  have := congrArg List.length he
  simp only [lowerStr, List.length_map, List.length_take] at this
  omega

theorem ciPrefix_lower {pat s : Str} (h : ciPrefix pat s = true) :
    lowerStr (s.take pat.length) = lowerStr pat := by
  unfold ciPrefix at h
  exact eq_of_beq h

theorem findClose_length {closing : Str} (hne : closing ≠ []) :
    ∀ {s content after : Str}, findClose closing s = some (content, after) →
      after.length < s.length := by
  intro s
  induction s with
  | nil => intro content after h; simp [findClose] at h
  | cons c rest ih =>
    intro content after h
    simp only [findClose] at h
    by_cases hp : ciPrefix closing (c :: rest) = true
    · rw [if_pos hp] at h
      have hcl : closing.length ≠ 0 := fun h0 => hne (List.length_eq_zero.mp h0)
      cases h
      simp only [List.length_drop, List.length_cons]
      omega
    · rw [if_neg hp] at h
      cases hfc : findClose closing rest with
      | none => rw [hfc] at h; exact absurd h (by simp)
      | some pr =>
          obtain ⟨ct, af⟩ := pr
          rw [hfc] at h
          dsimp only at h
          cases h
          have := ih hfc
          simp only [List.length_cons]
          omega

theorem tryTag_some {t s cap content after : Str}
    (h : tryTag t s = some (cap, content, after)) :
    cap = s.take t.length ∧ after.length < s.length ∧ lowerStr cap = lowerStr t := by
  simp only [tryTag] at h
  by_cases hp : ciPrefix t s = true
  · rw [if_pos hp] at h
    cases hmac : matchAttrClose (s.drop t.length) with
    | none => rw [hmac] at h; exact absurd h (by simp)
    | some contentStart =>
        rw [hmac] at h
        dsimp only at h
        cases hfc : findClose ('<' :: '/' :: (s.take t.length ++ ['>'])) contentStart with
        | none => rw [hfc] at h; exact absurd h (by simp)
        | some pr =>
            obtain ⟨ct, af⟩ := pr
            rw [hfc] at h
            dsimp only at h
            cases h
            have h1 := matchAttrClose_length hmac
            have h2 := findClose_length (by simp) hfc
            have h3 : (s.drop t.length).length ≤ s.length := by
              simp only [List.length_drop]
              omega
            exact ⟨rfl, by omega, ciPrefix_lower hp⟩
  · rw [if_neg hp] at h
    exact absurd h (by simp)

theorem tryTags_some :
    ∀ {tags : List Str} {s cap content after : Str},
      tryTags tags s = some (cap, content, after) →
      after.length < s.length ∧ ∃ u ∈ tags, lowerStr cap = lowerStr u := by
  intro tags
  induction tags with
  | nil => intro s cap content after h; simp [tryTags] at h
  | cons t ts ih =>
    intro s cap content after h
    simp only [tryTags] at h
    cases htt : tryTag t s with
    | some r =>
        rw [htt] at h
        dsimp only at h
        cases h
        obtain ⟨-, h2, h3⟩ := tryTag_some htt
        exact ⟨h2, t, by simp, h3⟩
    | none =>
        rw [htt] at h
        dsimp only at h
        obtain ⟨h2, u, hu, h3⟩ := ih h
        exact ⟨h2, u, by simp [hu], h3⟩

theorem scanAux_spec (tags : List Str) :
    ∀ (fuel : Nat) (s : Str) (pos : Nat),
      (∀ m ∈ scanAux tags fuel s pos,
        pos ≤ m.start ∧ m.start < m.stop ∧ ∃ u ∈ tags, lowerStr m.tagText = lowerStr u) ∧
      List.Chain' (fun a b => a.stop ≤ b.start) (scanAux tags fuel s pos) := by
  intro fuel
  induction fuel with
  | zero => intro s pos; simp [scanAux]
  | succ fuel ih =>
    intro s pos
    cases s with
    | nil => simp [scanAux]
    | cons c rest =>
      by_cases hc : c = '<'
      · cases htt : tryTags tags rest with
        | none =>
            rw [scanAux, if_pos hc, htt]
            obtain ⟨ihm, ihc⟩ := ih rest (pos + 1)
            exact ⟨fun m hm =>
              ⟨Nat.le_of_succ_le (ihm m hm).1, (ihm m hm).2.1, (ihm m hm).2.2⟩, ihc⟩
        | some trip =>
            obtain ⟨cap, content, after⟩ := trip
            rw [scanAux, if_pos hc, htt]
            obtain ⟨hlen, hu⟩ := tryTags_some htt
            obtain ⟨ihm, ihc⟩ := ih after (pos + ((c :: rest).length - after.length))
            constructor
            · intro m hm
              rcases List.mem_cons.mp hm with rfl | hm'
              · refine ⟨Nat.le_refl pos, ?_, hu⟩
                simp only [List.length_cons]
                omega
              · obtain ⟨a, b, c'⟩ := ihm m hm'
                refine ⟨?_, b, c'⟩
                omega
            · rw [List.chain'_cons']
              refine ⟨?_, ihc⟩
              intro y hy
              have hmem := List.mem_of_mem_head? hy
              exact (ihm y hmem).1
      · rw [scanAux, if_neg hc]
        obtain ⟨ihm, ihc⟩ := ih rest (pos + 1)
        exact ⟨fun m hm =>
          ⟨Nat.le_of_succ_le (ihm m hm).1, (ihm m hm).2.1, (ihm m hm).2.2⟩, ihc⟩

theorem scanAux_nil_input (tags : List Str) (fuel : Nat) (pos : Nat) :
    scanAux tags fuel [] pos = [] := by
  cases fuel <;> rfl

/-- The fuel is only a termination device: any two bounds of the input's
length give the same scan, so `scanMatches`'s choice of `output.length` loses
no matches. -/
theorem scanAux_fuel (tags : List Str) :
    ∀ (fuel fuel' : Nat) (s : Str) (pos : Nat), s.length ≤ fuel → s.length ≤ fuel' →
      scanAux tags fuel s pos = scanAux tags fuel' s pos := by
  intro fuel
  induction fuel with
  | zero =>
      intro fuel' s pos hf hf'
      have hs : s = [] := List.length_eq_zero.mp (Nat.le_zero.mp hf)
      subst hs
      rw [scanAux_nil_input, scanAux_nil_input]
  | succ fuel ih =>
      intro fuel' s pos hf hf'
      cases s with
      | nil => rw [scanAux_nil_input, scanAux_nil_input]
      | cons c rest =>
          cases fuel' with
          | zero => simp at hf'
          | succ f' =>
              by_cases hc : c = '<'
              · cases htt : tryTags tags rest with
                | none =>
                    rw [scanAux, if_pos hc, htt, scanAux, if_pos hc, htt]
                    exact ih f' rest (pos + 1) (by simpa using hf) (by simpa using hf')
                | some trip =>
                    obtain ⟨cap, content, after⟩ := trip
                    rw [scanAux, if_pos hc, htt, scanAux, if_pos hc, htt]
                    dsimp only
                    have hlen : after.length < rest.length := (tryTags_some htt).1
                    rw [ih f' after (pos + ((c :: rest).length - after.length))
                      (by simp at hf ⊢; omega) (by simp at hf' ⊢; omega)]
              · rw [scanAux, if_neg hc, scanAux, if_neg hc]
                exact ih f' rest (pos + 1) (by simpa using hf) (by simpa using hf')

theorem scanAux_nil_tags : ∀ (fuel : Nat) (s : Str) (pos : Nat),
    scanAux [] fuel s pos = [] := by
  intro fuel
  induction fuel with
  | zero => intro s pos; rfl
  | succ fuel ih =>
    intro s pos
    cases s with
    | nil => rfl
    | cons c rest =>
      by_cases hc : c = '<'
      · rw [scanAux, if_pos hc]
        show scanAux [] fuel rest (pos + 1) = []
        exact ih rest (pos + 1)
      · rw [scanAux, if_neg hc]
        exact ih rest (pos + 1)

/-! ### C8: parseOutput -/

/-- An extension registered under a trigger tag that contains an uppercase
letter; its `parse` accepts any content. -/
def runExt : IExtension :=
  { name := "run".data
    description := "Demo extension".data
    triggerTag := "Run".data
    parse := fun content =>
      ParseOutcome.ok { tool := "run".data, parameters := [("cmd".data, content)] }
    execute := fun _ m => (Except.ok { success := true, output := "ran".data }, m) }

/-- The registry after registering `runExt` into a fresh registry. -/
def runReg : ExtensionRegistry :=
  match ExtensionRegistry.empty.register runExt with
  | Except.ok reg => reg
  | Except.error _ => ExtensionRegistry.empty

/-- C8 counterexample: with an extension registered under trigger tag "Run",
the scan of "<Run>x</Run>" finds exactly one (case-insensitive) occurrence of
that registered trigger tag, and the extension's `parse` returns an action on
that content — yet `parseOutput` returns no pair at all: the loop lowercases
the matched tag name before the map lookup, while the map key keeps the
registered spelling. -/
theorem c8_counterexample :
    (scanMatches (listTags runReg) ("<Run>x</Run>".data)).length = 1 ∧
    runExt.parse ("x".data) =
      ParseOutcome.ok { tool := "run".data, parameters := [("cmd".data, "x".data)] } ∧
    parseOutput runReg ("<Run>x</Run>".data) = [] := by
  refine ⟨rfl, rfl, rfl⟩

/-- C8 (amended): provided every registered trigger tag is stored in
lowercase (which holds for all extensions shipped in the source, and is
required because the lookup lowercases the matched name while map keys keep
their registered spelling), `parseOutput` returns exactly the (extension,
action) pairs obtained by folding each regex match — the matches are
non-overlapping and in left-to-right text order — through the registered-tag
lookup and the owning extension's `parse`; a match whose `parse` throws or
returns null contributes nothing but does not stop later matches from being
processed, and unregistered tags are never matched at all. -/
theorem c8_parse_output (reg : ExtensionRegistry) (output : Str)
    (hlower : ∀ p ∈ reg.tagToExtension, lowerStr p.1 = p.1) :
    parseOutput reg output =
      (scanMatches (listTags reg) output).filterMap (resolveMatch reg) ∧
    List.Chain' (fun a b => a.stop ≤ b.start) (scanMatches (listTags reg) output) ∧
    (∀ m ∈ scanMatches (listTags reg) output, m.start < m.stop) ∧
    (∀ m ∈ scanMatches (listTags reg) output,
      ∃ ext, mapGet reg.tagToExtension (lowerStr m.tagText) = some ext ∧
        resolveMatch reg m =
          match ext.parse (trimStr m.content) with
          | ParseOutcome.ok action => some (ext, action)
          | _ => none) := by
  obtain ⟨hmem, hchain⟩ := scanAux_spec (listTags reg) output.length output 0
  refine ⟨?_, hchain, fun m hm => (hmem m hm).2.1, ?_⟩
  · unfold parseOutput
    by_cases he : (listTags reg).isEmpty = true
    · rw [if_pos he]
      have hnil : listTags reg = [] := List.isEmpty_iff.mp he
      rw [hnil]
      unfold scanMatches
      rw [scanAux_nil_tags]
      rfl
    · rw [if_neg he]
  · intro m hm
    obtain ⟨-, -, u, hu, hlow⟩ := (hmem m hm)
    obtain ⟨p, hp, hpu⟩ := List.mem_map.mp hu
    rw [← hpu, hlower p hp] at hlow
    have hsome : (mapGet reg.tagToExtension (lowerStr m.tagText)).isSome := by
      rw [hlow]
      unfold mapGet
      cases hfind : reg.tagToExtension.find? (fun q => q.1 == p.1) with
      | none =>
          rw [List.find?_eq_none] at hfind
          exact absurd (by simp : (p.1 == p.1) = true) (hfind p hp)
      | some q => rfl
    obtain ⟨ext, hext⟩ := Option.isSome_iff_exists.mp hsome
    refine ⟨ext, hext, ?_⟩
    unfold resolveMatch
    rw [hext]

/-- An extension with a lowercase trigger tag, as shipped in the source. -/
def thinkExt : IExtension :=
  { name := "think".data
    description := "Reason step by step".data
    triggerTag := "think".data
    parse := fun content =>
      ParseOutcome.ok { tool := "think".data, parameters := [("thought".data, content)] }
    execute := fun _ m => (Except.ok { success := true, output := "Thought recorded".data }, m) }

/-- The registry after registering `thinkExt` into a fresh registry. -/
def thinkReg : ExtensionRegistry :=
  match ExtensionRegistry.empty.register thinkExt with
  | Except.ok reg => reg
  | Except.error _ => ExtensionRegistry.empty

theorem c8_parse_output_witness :
    parseOutput thinkReg ("say <think>plan</think> then".data) =
      (scanMatches (listTags thinkReg) ("say <think>plan</think> then".data)).filterMap
        (resolveMatch thinkReg) ∧
    List.Chain' (fun a b => a.stop ≤ b.start)
      (scanMatches (listTags thinkReg) ("say <think>plan</think> then".data)) := by
  have hl : ∀ p ∈ thinkReg.tagToExtension, lowerStr p.1 = p.1 := by
    intro p hp
    have hp' : p ∈ [(("think".data : Str), thinkExt)] := hp
    rw [List.mem_singleton] at hp'
    subst hp'
    rfl
  have h := c8_parse_output thinkReg ("say <think>plan</think> then".data) hl
  exact ⟨h.1, h.2.1⟩

/-! ### Orchestrator loop (`orchestrator.ts`, hierarchical version) -/

namespace ConfuciusOrchestrator

/-- Termination reasons (`types.ts`, `OrchestratorState`). -/
inductive TerminationReason
  | completed
  | max_iterations
  | error
  | user_cancelled
deriving DecidableEq, Repr

/-- The loop state (`types.ts`, `OrchestratorState`). -/
structure OrchestratorState where
  iteration : Nat
  running : Bool
  terminationReason : Option TerminationReason := none
  result : Option ExecutionResult := none
deriving DecidableEq, Repr

/-- The truthiness of `result.metadata?.terminate`. -/
def resultTerminates (r : ExecutionResult) : Bool :=
  (r.metadata.map (fun md => md.terminate)).getD false

/-- `result.metadata.finalMessage as string || result.output`: JavaScript
`||` falls back both on a missing value and on the empty string. -/
def finalMessageOf (r : ExecutionResult) : Str :=
  match r.metadata.bind (fun md => md.finalMessage) with
  | some f => if f = [] then r.output else f
  | none => r.output

/-- `registry.execute(extension, action, context)`: a thrown error is
converted into a failed result (code EXECUTION_ERROR, recoverable) rather
than propagating. -/
def registryExecute (ext : IExtension) (action : ParsedAction) (mem : HierarchicalMemory) :
    ExecutionResult × HierarchicalMemory :=
  match ext.execute action mem with
  | (Except.ok r, mem') => (r, mem')
  | (Except.error e, mem') =>
      ({ success := false
         output := "Error executing ".data ++ ext.name ++ ": ".data ++ e
         error := some { code := "EXECUTION_ERROR".data, message := e, recoverable := true } },
       mem')

/-- `registry.applyInputCallbacks`: run each extension's optional
`onInputMessages` hook in registration order; a hook that throws is logged
and the previous value passes through unchanged. -/
def applyInputCallbacks (reg : ExtensionRegistry) (messages : List Message) : List Message :=
  reg.extensions.foldl
    (fun result p =>
      match p.2.onInputMessages with
      | none => result
      | some hook =>
        match hook result with
        | Except.ok r => r
        | Except.error _ => result)
    messages

/-- `registry.applyOutputCallbacks`: likewise for `onLLMOutput`. -/
def applyOutputCallbacks (reg : ExtensionRegistry) (output : Str) : Str :=
  reg.extensions.foldl
    (fun result p =>
      match p.2.onLLMOutput with
      | none => result
      | some hook =>
        match hook result with
        | Except.ok r => r
        | Except.error _ => result)
    output

/-- The `<result>...</result>` wrapper of a tool observation message. -/
def toolResultContent (out : Str) : Str :=
  "<result>".data ++ out ++ "</result>".data

/-- The action loop's mutable locals (`results`, `shouldContinue`,
`shouldTerminate`, `terminationMessage`) together with the memory threaded
through the context. -/
structure BatchAcc where
  results : List ExecutionResult
  shouldContinue : Bool
  shouldTerminate : Bool
  terminationMessage : Str
  mem : HierarchicalMemory

/-- The `for (const { extension, action } of actions)` loop body: execute the
action through the registry, record a termination signal and its final
message, append the tool-result observation to the runnable scope, record the
continuation signal (`signalsContinuation !== false`; artifact saving does
not touch loop state), and break out as soon as termination was signalled. -/
def execBatch (now : Nat) : List (IExtension × ParsedAction) → BatchAcc → BatchAcc
  | [], acc => acc
  | (ext, action) :: rest, acc =>
    let p := registryExecute ext action acc.mem
    let result := p.1
    let acc' : BatchAcc :=
      { results := acc.results ++ [result]
        shouldTerminate := acc.shouldTerminate || resultTerminates result
        terminationMessage :=
          if resultTerminates result then finalMessageOf result else acc.terminationMessage
        mem := WorkingMemoryManager.addToRunnable p.2 now
          { role := .tool, content := toolResultContent result.output
            toolName := some ext.name, timestamp := some now }
        shouldContinue :=
          if ext.signalsContinuation ≠ some false then true else acc.shouldContinue }
    if acc'.shouldTerminate then acc' else execBatch now rest acc'

/-- The run-configuration fields that steer the loop (`RunConfig`).
`maxIterations` is an `Int` because the source accepts any number; the other
configuration fields (enabled extensions, model settings) never influence the
loop itself. -/
structure LoopConfig where
  maxIterations : Int
  compressionThreshold : Nat
deriving DecidableEq, Repr

/-- The `while (state.iteration < this.config.maxIterations && state.running)`
loop.  Oracles: `llm i msgs` is the model's response content in iteration `i`
(the usage counters are not folded into the hierarchical memory), `summarize`
is the Architect (it never throws), `clock i` the wall time of iteration `i`.
The fuel argument makes the recursion structural; `run` supplies
`maxIterations.toNat`, which bounds the number of remaining turns. -/
def runLoop (llm : Nat → List Message → Str) (summarize : List Message → Str)
    (clock : Nat → Nat) (reg : ExtensionRegistry) (cfg : LoopConfig) :
    Nat → OrchestratorState → HierarchicalMemory →
      OrchestratorState × HierarchicalMemory
  | 0, state, mem => (state, mem)
  | fuel + 1, state, mem =>
    if (state.iteration : Int) < cfg.maxIterations ∧ state.running = true then
      let it := state.iteration + 1
      let now := clock it
      let mem1 :=
        if WorkingMemoryManager.needsCompression mem cfg.compressionThreshold then
          compressContext summarize mem now
        else mem
      let processedMessages := applyInputCallbacks reg (WorkingMemoryManager.getMessages mem1)
      let processedOutput := applyOutputCallbacks reg (llm it processedMessages)
      let actions := parseOutput reg processedOutput
      if actions.isEmpty then
        ({ iteration := it
           running := false
           terminationReason := some TerminationReason.completed
           result := some { success := true, output := processedOutput } },
         WorkingMemoryManager.addToRunnable mem1 now
           { role := .assistant, content := processedOutput, timestamp := some now })
      else
        let mem2 := WorkingMemoryManager.addToRunnable mem1 now
          { role := .assistant, content := processedOutput, timestamp := some now }
        let batch := execBatch now actions
          { results := [], shouldContinue := false, shouldTerminate := false
            terminationMessage := [], mem := mem2 }
        if batch.shouldTerminate then
          ({ iteration := it
             running := false
             terminationReason := some TerminationReason.completed
             result := some { success := true, output := batch.terminationMessage } },
           batch.mem)
        else
          runLoop llm summarize clock reg cfg fuel { state with iteration := it } batch.mem
    else (state, mem)

/-- The `if (state.iteration >= this.config.maxIterations && state.running)`
check after the loop. -/
def finishRun (cfg : LoopConfig) (state : OrchestratorState) : OrchestratorState :=
  if cfg.maxIterations ≤ (state.iteration : Int) ∧ state.running = true then
    { state with
      running := false
      terminationReason := some TerminationReason.max_iterations }
  else state

/-- `run(initialMessage)` up to loop exit: create the hierarchical memory,
initialize the session scope with the (rule-augmented) system prompt and the
entry scope with the task, run the loop, apply the max-iterations check.
`systemPrompt` stands for `enhancedSystemPrompt` (rule loading only prepends
text).  The post-loop self-improvement pipeline (NoteTaker summary,
Meta-Agent lesson) reads but never changes the returned state or scopes, so
it is outside this embedding. -/
def run (llm : Nat → List Message → Str) (summarize : List Message → Str)
    (clock : Nat → Nat) (reg : ExtensionRegistry) (cfg : LoopConfig)
    (systemPrompt initialMessage : Str) : OrchestratorState × HierarchicalMemory :=
  let now0 := clock 0
  let mm0 := WorkingMemoryManager.emptyMemory (cfg.compressionThreshold * 3 / 2)
  let mm1 := WorkingMemoryManager.initializeSession mm0 now0 systemPrompt
  let mm2 := WorkingMemoryManager.setEntry mm1 now0 initialMessage
  let res := runLoop llm summarize clock reg cfg cfg.maxIterations.toNat
    { iteration := 0, running := true } mm2
  (finishRun cfg res.1, res.2)

end ConfuciusOrchestrator

namespace ConfuciusOrchestrator

/-- The effect of one pass of the action loop's body on the accumulator. -/
def execStep (now : Nat) (ext : IExtension) (action : ParsedAction) (acc : BatchAcc) :
    BatchAcc :=
  { results := acc.results ++ [(registryExecute ext action acc.mem).1]
    shouldTerminate := acc.shouldTerminate ||
      resultTerminates (registryExecute ext action acc.mem).1
    terminationMessage :=
      if resultTerminates (registryExecute ext action acc.mem).1 then
        finalMessageOf (registryExecute ext action acc.mem).1
      else acc.terminationMessage
    mem := WorkingMemoryManager.addToRunnable (registryExecute ext action acc.mem).2 now
      { role := .tool
        content := toolResultContent (registryExecute ext action acc.mem).1.output
        toolName := some ext.name, timestamp := some now }
    shouldContinue := if ext.signalsContinuation ≠ some false then true else acc.shouldContinue }

theorem execBatch_cons_eq (now : Nat) (ext : IExtension) (action : ParsedAction)
    (rest : List (IExtension × ParsedAction)) (acc : BatchAcc) :
    execBatch now ((ext, action) :: rest) acc =
      if (execStep now ext action acc).shouldTerminate then execStep now ext action acc
      else execBatch now rest (execStep now ext action acc) := rfl

theorem execBatch_append (now : Nat) :
    ∀ (xs ys : List (IExtension × ParsedAction)) (acc : BatchAcc),
      (execBatch now xs acc).shouldTerminate = false →
      execBatch now (xs ++ ys) acc = execBatch now ys (execBatch now xs acc) := by
  intro xs
  induction xs with
  | nil => intro ys acc _; rfl
  | cons pa rest ih =>
      obtain ⟨ext, action⟩ := pa
      intro ys acc h
      rw [execBatch_cons_eq] at h
      by_cases hst : (execStep now ext action acc).shouldTerminate = true
      · rw [if_pos hst] at h
        exact absurd h (by rw [hst]; simp)
      · rw [if_neg hst] at h
        rw [List.cons_append, execBatch_cons_eq, if_neg hst, execBatch_cons_eq, if_neg hst]
        exact ih ys (execStep now ext action acc) h

theorem execBatch_terminates_now (now : Nat) (ext : IExtension) (action : ParsedAction)
    (rest : List (IExtension × ParsedAction)) (acc : BatchAcc)
    (hacc : acc.shouldTerminate = false)
    (hterm : resultTerminates (registryExecute ext action acc.mem).1 = true) :
    execBatch now ((ext, action) :: rest) acc = execStep now ext action acc ∧
    (execStep now ext action acc).shouldTerminate = true ∧
    (execStep now ext action acc).results =
      acc.results ++ [(registryExecute ext action acc.mem).1] ∧
    (execStep now ext action acc).terminationMessage =
      finalMessageOf (registryExecute ext action acc.mem).1 := by
  have hst : (execStep now ext action acc).shouldTerminate = true := by
    simp [execStep, hacc, hterm]
  refine ⟨?_, hst, rfl, by simp [execStep, hterm]⟩
  rw [execBatch_cons_eq, if_pos hst]

theorem execBatch_no_terminate (now : Nat) :
    ∀ (actions : List (IExtension × ParsedAction)) (acc : BatchAcc),
      acc.shouldTerminate = false →
      (∀ pa ∈ actions, ∀ a m r m', pa.1.execute a m = (Except.ok r, m') →
        resultTerminates r = false) →
      (execBatch now actions acc).shouldTerminate = false := by
  intro actions
  induction actions with
  | nil => intro acc hacc _; exact hacc
  | cons pa rest ih =>
      obtain ⟨ext, action⟩ := pa
      intro acc hacc hall
      have hres : resultTerminates (registryExecute ext action acc.mem).1 = false := by
        cases hpair : ext.execute action acc.mem with
        | mk exc mem' =>
          cases exc with
          | ok r =>
              have hr := hall (ext, action) (List.mem_cons_self _ _) action acc.mem r mem' hpair
              simp [registryExecute, hpair, hr]
          | error e =>
              simp [registryExecute, hpair, resultTerminates]
      have hst : (execStep now ext action acc).shouldTerminate = false := by
        simp [execStep, hacc, hres]
      rw [execBatch_cons_eq, if_neg (by rw [hst]; simp)]
      exact ih (execStep now ext action acc) hst
        (fun q hq => hall q (List.mem_cons_of_mem _ hq))

/-- One unfolding of the loop body, with the iteration's intermediate values
named by equations. -/
theorem runLoop_succ (llm : Nat → List Message → Str) (summarize : List Message → Str)
    (clock : Nat → Nat) (reg : ExtensionRegistry) (cfg : LoopConfig) (fuel : Nat)
    (state : OrchestratorState) (mem : HierarchicalMemory)
    (now : Nat) (mem1 : HierarchicalMemory) (out : Str)
    (acts : List (IExtension × ParsedAction)) (acc0 : BatchAcc)
    (hnow : now = clock (state.iteration + 1))
    (hmem1 : mem1 =
      (if WorkingMemoryManager.needsCompression mem cfg.compressionThreshold then
        compressContext summarize mem now
      else mem))
    (hout : out = applyOutputCallbacks reg
      (llm (state.iteration + 1)
        (applyInputCallbacks reg (WorkingMemoryManager.getMessages mem1))))
    (hacts : acts = parseOutput reg out)
    (hacc0 : acc0 =
      { results := [], shouldContinue := false, shouldTerminate := false
        terminationMessage := []
        mem := WorkingMemoryManager.addToRunnable mem1 now
          { role := .assistant, content := out, timestamp := some now } }) :
    runLoop llm summarize clock reg cfg (fuel + 1) state mem =
      (if (state.iteration : Int) < cfg.maxIterations ∧ state.running = true then
        if acts.isEmpty then
          ({ iteration := state.iteration + 1
             running := false
             terminationReason := some TerminationReason.completed
             result := some { success := true, output := out } },
           WorkingMemoryManager.addToRunnable mem1 now
             { role := .assistant, content := out, timestamp := some now })
        else
          if (execBatch now acts acc0).shouldTerminate then
            ({ iteration := state.iteration + 1
               running := false
               terminationReason := some TerminationReason.completed
               result := some {
                 success := true
                 output := (execBatch now acts acc0).terminationMessage } },
             (execBatch now acts acc0).mem)
          else
            runLoop llm summarize clock reg cfg fuel
              { state with iteration := state.iteration + 1 } (execBatch now acts acc0).mem
      else (state, mem)) := by
  subst hnow
  subst hmem1
  subst hout
  subst hacts
  subst hacc0
  rfl

end ConfuciusOrchestrator

/-- Every extension returned by `parseOutput` is a registered one (a value of
`tagToExtension`). -/
theorem parseOutput_mem_tag {reg : ExtensionRegistry} {out : Str} {ext : IExtension}
    {a : ParsedAction} (h : (ext, a) ∈ parseOutput reg out) :
    ∃ p ∈ reg.tagToExtension, p.2 = ext := by
  have h' : (ext, a) ∈
      (if (listTags reg).isEmpty = true then ([] : List (IExtension × ParsedAction))
       else (scanMatches (listTags reg) out).filterMap (resolveMatch reg)) := h
  by_cases he : (listTags reg).isEmpty = true
  · rw [if_pos he] at h'
    simp at h'
  · rw [if_neg he] at h'
    obtain ⟨m, hm, hres⟩ := List.mem_filterMap.mp h'
    unfold resolveMatch at hres
    cases hget : mapGet reg.tagToExtension (lowerStr m.tagText) with
    | none => rw [hget] at hres; exact absurd hres (by simp)
    | some ext' =>
        rw [hget] at hres
        dsimp only at hres
        cases hp : ext'.parse (trimStr m.content) with
        | ok action =>
            rw [hp] at hres
            dsimp only at hres
            have hpair : ext' = ext ∧ action = a := by
              constructor
              · exact congrArg Prod.fst (Option.some.inj hres)
              · exact congrArg Prod.snd (Option.some.inj hres)
            obtain ⟨rfl, rfl⟩ := hpair
            unfold mapGet at hget
            cases hfind : reg.tagToExtension.find? (fun q => q.1 == lowerStr m.tagText) with
            | none => rw [hfind] at hget; exact absurd hget (by simp)
            | some q =>
                rw [hfind] at hget
                simp at hget
                exact ⟨q, List.mem_of_find?_eq_some hfind, hget⟩
        | thrown e => rw [hp] at hres; exact absurd hres (by simp)
        | nullResult => rw [hp] at hres; exact absurd hres (by simp)

namespace ConfuciusOrchestrator

/-- Under a model that always yields at least one action and extensions that
never signal termination, the loop never stops on its own: it runs until the
iteration ceiling and exits with the state otherwise untouched. -/
theorem runLoop_no_stop (llm : Nat → List Message → Str) (summarize : List Message → Str)
    (clock : Nat → Nat) (reg : ExtensionRegistry) (cfg : LoopConfig)
    (hActions : ∀ i msgs, parseOutput reg (applyOutputCallbacks reg (llm i msgs)) ≠ [])
    (hNoTerm : ∀ p ∈ reg.tagToExtension, ∀ a m r m', p.2.execute a m = (Except.ok r, m') →
      resultTerminates r = false) :
    ∀ (fuel : Nat) (state : OrchestratorState) (mem : HierarchicalMemory),
      state.running = true →
      (state.iteration : Int) ≤ cfg.maxIterations →
      cfg.maxIterations.toNat - state.iteration ≤ fuel →
      (runLoop llm summarize clock reg cfg fuel state mem).1 =
        { state with iteration := cfg.maxIterations.toNat } := by
  intro fuel
  induction fuel with
  | zero =>
      intro state mem hrun hle hfuel
      obtain ⟨it, run, tr, res⟩ := state
      simp only at hle hfuel ⊢
      have hit : it = cfg.maxIterations.toNat := by omega
      subst hit
      rfl
  | succ fuel ih =>
      intro state mem hrun hle hfuel
      by_cases hlt : (state.iteration : Int) < cfg.maxIterations
      · rw [runLoop_succ llm summarize clock reg cfg fuel state mem _ _ _ _ _
          rfl rfl rfl rfl rfl]
        rw [if_pos ⟨hlt, hrun⟩]
        have hne := hActions (state.iteration + 1)
          (applyInputCallbacks reg (WorkingMemoryManager.getMessages
            (if WorkingMemoryManager.needsCompression mem cfg.compressionThreshold then
              compressContext summarize mem (clock (state.iteration + 1))
            else mem)))
        rw [if_neg (fun hh => hne (List.isEmpty_iff.mp hh))]
        have hterm : (execBatch (clock (state.iteration + 1))
            (parseOutput reg (applyOutputCallbacks reg
              (llm (state.iteration + 1)
                (applyInputCallbacks reg (WorkingMemoryManager.getMessages
                  (if WorkingMemoryManager.needsCompression mem cfg.compressionThreshold then
                    compressContext summarize mem (clock (state.iteration + 1))
                  else mem))))))
            { results := [], shouldContinue := false, shouldTerminate := false
              terminationMessage := []
              mem := WorkingMemoryManager.addToRunnable
                (if WorkingMemoryManager.needsCompression mem cfg.compressionThreshold then
                  compressContext summarize mem (clock (state.iteration + 1))
                else mem) (clock (state.iteration + 1))
                { role := .assistant
                  content := applyOutputCallbacks reg
                    (llm (state.iteration + 1)
                      (applyInputCallbacks reg (WorkingMemoryManager.getMessages
                        (if WorkingMemoryManager.needsCompression mem
                            cfg.compressionThreshold then
                          compressContext summarize mem (clock (state.iteration + 1))
                        else mem))))
                  timestamp := some (clock (state.iteration + 1)) } }).shouldTerminate
            = false := by
          apply execBatch_no_terminate
          · rfl
          · intro pa hpa a m r m' hex
            obtain ⟨p, hp, hpe⟩ := parseOutput_mem_tag
              (show (pa.1, pa.2) ∈ parseOutput reg _ from by simpa using hpa)
            exact hNoTerm p hp a m r m' (by rw [hpe]; exact hex)
        rw [if_neg (by rw [hterm]; simp)]
        exact ih { state with iteration := state.iteration + 1 } _ hrun
          (show ((state.iteration + 1 : Nat) : Int) ≤ cfg.maxIterations by push_cast; omega)
          (show cfg.maxIterations.toNat - (state.iteration + 1) ≤ fuel by omega)
      · rw [runLoop_succ llm summarize clock reg cfg fuel state mem _ _ _ _ _
          rfl rfl rfl rfl rfl]
        rw [if_neg (fun hc => hlt hc.1)]
        obtain ⟨it, run, tr, res⟩ := state
        simp only at hle hlt ⊢
        have hit : it = cfg.maxIterations.toNat := by omega
        subst hit
        rfl

end ConfuciusOrchestrator

/-! ### C4: the iteration ceiling -/

/-- C4: with maxIterations = N ≥ 1, a model whose every response parses to at
least one action and extensions whose results never carry a termination
signal, the run performs exactly N full iterations and ends with reason
max_iterations (the ceiling check sits in the loop condition, so every
iteration that starts completes). -/
theorem c4_max_iterations (llm : Nat → List Message → Str) (summarize : List Message → Str)
    (clock : Nat → Nat) (reg : ExtensionRegistry) (cfg : ConfuciusOrchestrator.LoopConfig)
    (N : Nat) (sys init : Str)
    (hmax : cfg.maxIterations = (N : Int)) (hN : 1 ≤ N)
    (hActions : ∀ i msgs,
      parseOutput reg (ConfuciusOrchestrator.applyOutputCallbacks reg (llm i msgs)) ≠ [])
    (hNoTerm : ∀ p ∈ reg.tagToExtension, ∀ a m r m', p.2.execute a m = (Except.ok r, m') →
      ConfuciusOrchestrator.resultTerminates r = false) :
    (ConfuciusOrchestrator.run llm summarize clock reg cfg sys init).1.iteration = N ∧
    (ConfuciusOrchestrator.run llm summarize clock reg cfg sys init).1.terminationReason =
      some ConfuciusOrchestrator.TerminationReason.max_iterations ∧
    (ConfuciusOrchestrator.run llm summarize clock reg cfg sys init).1.running = false := by
  simp only [ConfuciusOrchestrator.run]
  rw [ConfuciusOrchestrator.runLoop_no_stop llm summarize clock reg cfg hActions hNoTerm
    cfg.maxIterations.toNat { iteration := 0, running := true } _ rfl
    (show ((0 : Nat) : Int) ≤ cfg.maxIterations by rw [hmax]; omega)
    (show cfg.maxIterations.toNat - 0 ≤ cfg.maxIterations.toNat by omega)]
  unfold ConfuciusOrchestrator.finishRun
  rw [if_pos (And.intro
    (show cfg.maxIterations ≤ ((cfg.maxIterations.toNat : Nat) : Int) by rw [hmax]; omega)
    rfl)]
  exact ⟨show cfg.maxIterations.toNat = N by rw [hmax]; omega, rfl, rfl⟩

/-! ### C2: a termination signal pre-empts the batch and the run -/

/-- C2: if, in some iteration's action batch, the actions before index i
produce no termination signal and the i-th executed result carries
metadata.terminate, then the actions after the i-th are never executed (the
batch outcome does not depend on them, and exactly i+1 results exist), and
the run ends on that iteration with reason completed and a success result
whose output is that result's message (`metadata.finalMessage || output`) —
even if earlier actions in the batch signalled continuation. -/
theorem c2_terminate_signal (llm : Nat → List Message → Str)
    (summarize : List Message → Str) (clock : Nat → Nat) (reg : ExtensionRegistry)
    (cfg : ConfuciusOrchestrator.LoopConfig) (fuel : Nat)
    (state : ConfuciusOrchestrator.OrchestratorState) (mem : HierarchicalMemory)
    (now : Nat) (mem1 : HierarchicalMemory) (out : Str)
    (pre : List (IExtension × ParsedAction)) (ext : IExtension) (a : ParsedAction)
    (post : List (IExtension × ParsedAction)) (acc0 : ConfuciusOrchestrator.BatchAcc)
    (hrun : state.running = true)
    (hit : (state.iteration : Int) < cfg.maxIterations)
    (hnow : now = clock (state.iteration + 1))
    (hmem1 : mem1 =
      (if needsCompression mem cfg.compressionThreshold then
        ConfuciusOrchestrator.compressContext summarize mem now
      else mem))
    (hout : out = ConfuciusOrchestrator.applyOutputCallbacks reg
      (llm (state.iteration + 1)
        (ConfuciusOrchestrator.applyInputCallbacks reg (getMessages mem1))))
    (hacc0 : acc0 =
      { results := [], shouldContinue := false, shouldTerminate := false
        terminationMessage := []
        mem := addToRunnable mem1 now
          { role := Role.assistant, content := out, timestamp := some now } })
    (hacts : parseOutput reg out = pre ++ (ext, a) :: post)
    (hpre : (ConfuciusOrchestrator.execBatch now pre acc0).shouldTerminate = false)
    (hterm : ConfuciusOrchestrator.resultTerminates
      (ConfuciusOrchestrator.registryExecute ext a
        (ConfuciusOrchestrator.execBatch now pre acc0).mem).1 = true) :
    ConfuciusOrchestrator.execBatch now (parseOutput reg out) acc0 =
      ConfuciusOrchestrator.execStep now ext a
        (ConfuciusOrchestrator.execBatch now pre acc0) ∧
    ConfuciusOrchestrator.execBatch now (parseOutput reg out) acc0 =
      ConfuciusOrchestrator.execBatch now (pre ++ [(ext, a)]) acc0 ∧
    (ConfuciusOrchestrator.execBatch now (parseOutput reg out) acc0).results =
      (ConfuciusOrchestrator.execBatch now pre acc0).results ++
        [(ConfuciusOrchestrator.registryExecute ext a
          (ConfuciusOrchestrator.execBatch now pre acc0).mem).1] ∧
    ConfuciusOrchestrator.runLoop llm summarize clock reg cfg (fuel + 1) state mem =
      ({ iteration := state.iteration + 1
         running := false
         terminationReason := some ConfuciusOrchestrator.TerminationReason.completed
         result := some {
           success := true
           output := ConfuciusOrchestrator.finalMessageOf
             (ConfuciusOrchestrator.registryExecute ext a
               (ConfuciusOrchestrator.execBatch now pre acc0).mem).1 } },
       (ConfuciusOrchestrator.execStep now ext a
         (ConfuciusOrchestrator.execBatch now pre acc0)).mem) ∧
    ConfuciusOrchestrator.finishRun cfg
      { iteration := state.iteration + 1
        running := false
        terminationReason := some ConfuciusOrchestrator.TerminationReason.completed
        result := some {
          success := true
          output := ConfuciusOrchestrator.finalMessageOf
            (ConfuciusOrchestrator.registryExecute ext a
              (ConfuciusOrchestrator.execBatch now pre acc0).mem).1 } } =
      { iteration := state.iteration + 1
        running := false
        terminationReason := some ConfuciusOrchestrator.TerminationReason.completed
        result := some {
          success := true
          output := ConfuciusOrchestrator.finalMessageOf
            (ConfuciusOrchestrator.registryExecute ext a
              (ConfuciusOrchestrator.execBatch now pre acc0).mem).1 } } := by
  obtain ⟨hcons, hst, hres, hmsg⟩ :=
    ConfuciusOrchestrator.execBatch_terminates_now now ext a post
      (ConfuciusOrchestrator.execBatch now pre acc0) hpre hterm
  obtain ⟨hcons2, -, -, -⟩ :=
    ConfuciusOrchestrator.execBatch_terminates_now now ext a []
      (ConfuciusOrchestrator.execBatch now pre acc0) hpre hterm
  have hbatch : ConfuciusOrchestrator.execBatch now (parseOutput reg out) acc0 =
      ConfuciusOrchestrator.execStep now ext a
        (ConfuciusOrchestrator.execBatch now pre acc0) := by
    rw [hacts, ConfuciusOrchestrator.execBatch_append now pre ((ext, a) :: post) acc0 hpre,
      hcons]
  refine ⟨hbatch, ?_, ?_, ?_, ?_⟩
  · rw [hbatch, ConfuciusOrchestrator.execBatch_append now pre [(ext, a)] acc0 hpre, hcons2]
  · rw [hbatch]
    exact hres
  · rw [ConfuciusOrchestrator.runLoop_succ llm summarize clock reg cfg fuel state mem
      now mem1 out (parseOutput reg out) acc0 hnow hmem1 hout rfl hacc0]
    rw [if_pos ⟨hit, hrun⟩]
    rw [if_neg (by rw [hacts]; simp)]
    rw [if_pos (by rw [hbatch]; exact hst)]
    rw [hbatch, hmsg]
  · unfold ConfuciusOrchestrator.finishRun
    rw [if_neg]
    intro hcond
    exact absurd hcond.2 (by simp)

/-! ### C3: zero parsed actions complete the run -/

/-- C3: in any iteration whose (callback-rewritten) model output parses to
zero actions, the run ends on that same iteration regardless of the remaining
iteration budget: terminationReason is completed, result is success with the
processed output text, and that text is appended as a final assistant message
to the runnable scope. -/
theorem c3_zero_actions (llm : Nat → List Message → Str) (summarize : List Message → Str)
    (clock : Nat → Nat) (reg : ExtensionRegistry) (cfg : ConfuciusOrchestrator.LoopConfig)
    (fuel : Nat) (state : ConfuciusOrchestrator.OrchestratorState)
    (mem : HierarchicalMemory) (now : Nat) (mem1 : HierarchicalMemory) (out : Str)
    (hrun : state.running = true)
    (hit : (state.iteration : Int) < cfg.maxIterations)
    (hnow : now = clock (state.iteration + 1))
    (hmem1 : mem1 =
      (if needsCompression mem cfg.compressionThreshold then
        ConfuciusOrchestrator.compressContext summarize mem now
      else mem))
    (hout : out = ConfuciusOrchestrator.applyOutputCallbacks reg
      (llm (state.iteration + 1)
        (ConfuciusOrchestrator.applyInputCallbacks reg (getMessages mem1))))
    (hparse : parseOutput reg out = []) :
    ConfuciusOrchestrator.runLoop llm summarize clock reg cfg (fuel + 1) state mem =
      ({ iteration := state.iteration + 1
         running := false
         terminationReason := some ConfuciusOrchestrator.TerminationReason.completed
         result := some { success := true, output := out } },
       addToRunnable mem1 now
         { role := Role.assistant, content := out, timestamp := some now }) ∧
    (addToRunnable mem1 now
      { role := Role.assistant, content := out, timestamp := some now }).runnable =
      mem1.runnable ++
        [{ role := Role.assistant, content := out, toolName := none
           timestamp := some now, scope := some MemoryScope.runnable }] ∧
    ConfuciusOrchestrator.finishRun cfg
      { iteration := state.iteration + 1
        running := false
        terminationReason := some ConfuciusOrchestrator.TerminationReason.completed
        result := some { success := true, output := out } } =
      { iteration := state.iteration + 1
        running := false
        terminationReason := some ConfuciusOrchestrator.TerminationReason.completed
        result := some { success := true, output := out } } := by
  subst hnow
  subst hmem1
  subst hout
  refine ⟨?_, ?_, ?_⟩
  · rw [ConfuciusOrchestrator.runLoop, if_pos ⟨hit, hrun⟩]
    simp only [hparse, List.isEmpty_nil, if_true]
  · simp [addToRunnable, addMessage]
  · unfold ConfuciusOrchestrator.finishRun
    rw [if_neg]
    intro hcond
    exact absurd hcond.2 (by simp)

/-! ### C10: non-positive iteration budget -/

/-- C10: with maxIterations at most 0 the loop body never executes: the
returned state has iteration 0, reason max_iterations and no result, and the
run's outcome does not depend on the model or the summarizer at all (they are
never invoked by the loop). -/
theorem c10_zero_max_iterations (llm : Nat → List Message → Str)
    (summarize : List Message → Str) (clock : Nat → Nat) (reg : ExtensionRegistry)
    (cfg : ConfuciusOrchestrator.LoopConfig) (sys init : Str)
    (hmax : cfg.maxIterations ≤ 0) :
    (ConfuciusOrchestrator.run llm summarize clock reg cfg sys init).1 =
      { iteration := 0
        running := false
        terminationReason := some ConfuciusOrchestrator.TerminationReason.max_iterations
        result := none } ∧
    ∀ (llm' : Nat → List Message → Str) (summarize' : List Message → Str),
      ConfuciusOrchestrator.run llm' summarize' clock reg cfg sys init =
        ConfuciusOrchestrator.run llm summarize clock reg cfg sys init := by
  have h0 : cfg.maxIterations.toNat = 0 := Int.toNat_of_nonpos hmax
  constructor
  · simp only [ConfuciusOrchestrator.run, h0]
    simp only [ConfuciusOrchestrator.runLoop]
    unfold ConfuciusOrchestrator.finishRun
    rw [if_pos]
    exact ⟨by simpa using hmax, rfl⟩
  · intro llm' summarize'
    simp only [ConfuciusOrchestrator.run, h0]
    simp only [ConfuciusOrchestrator.runLoop]

/-! ### Concrete witness scenarios for the loop theorems -/

/-- A stub model that answers plain text without any tag. -/
def c3llm : Nat → List Message → Str := fun _ _ => "All done".data

/-- A trivial summarizer oracle. -/
def c3summ : List Message → Str := fun _ => []

/-- A concrete clock oracle. -/
def c3clock : Nat → Nat := fun i => i

def c3cfg : ConfuciusOrchestrator.LoopConfig :=
  { maxIterations := 3, compressionThreshold := 1000 }

def c3state : ConfuciusOrchestrator.OrchestratorState := { iteration := 0, running := true }

def c3mem1 : HierarchicalMemory :=
  if needsCompression witnessMemory c3cfg.compressionThreshold then
    ConfuciusOrchestrator.compressContext c3summ witnessMemory (c3clock 1)
  else witnessMemory

def c3out : Str :=
  ConfuciusOrchestrator.applyOutputCallbacks ExtensionRegistry.empty
    (c3llm 1 (ConfuciusOrchestrator.applyInputCallbacks ExtensionRegistry.empty
      (getMessages c3mem1)))

theorem c3_zero_actions_witness :
    ConfuciusOrchestrator.runLoop c3llm c3summ c3clock ExtensionRegistry.empty c3cfg 1
        c3state witnessMemory =
      ({ iteration := 1
         running := false
         terminationReason := some ConfuciusOrchestrator.TerminationReason.completed
         result := some { success := true, output := c3out } },
       addToRunnable c3mem1 (c3clock 1)
         { role := Role.assistant, content := c3out, timestamp := some (c3clock 1) }) :=
  (c3_zero_actions c3llm c3summ c3clock ExtensionRegistry.empty c3cfg 0 c3state
    witnessMemory (c3clock 1) c3mem1 c3out rfl (by decide) rfl rfl rfl rfl).1

/-- A stub model that always emits one think action. -/
def c4llm : Nat → List Message → Str := fun _ _ => "<think>go</think>".data

def c4cfg : ConfuciusOrchestrator.LoopConfig :=
  { maxIterations := 2, compressionThreshold := 1000 }

theorem c4_max_iterations_witness :
    (ConfuciusOrchestrator.run c4llm c3summ c3clock thinkReg c4cfg ("sys".data)
      ("task".data)).1.iteration = 2 ∧
    (ConfuciusOrchestrator.run c4llm c3summ c3clock thinkReg c4cfg ("sys".data)
      ("task".data)).1.terminationReason =
      some ConfuciusOrchestrator.TerminationReason.max_iterations ∧
    (ConfuciusOrchestrator.run c4llm c3summ c3clock thinkReg c4cfg ("sys".data)
      ("task".data)).1.running = false := by
  have hA : ∀ i msgs, parseOutput thinkReg
      (ConfuciusOrchestrator.applyOutputCallbacks thinkReg (c4llm i msgs)) ≠ [] := by
    intro i msgs hnil
    have h1 : (parseOutput thinkReg
        (ConfuciusOrchestrator.applyOutputCallbacks thinkReg (c4llm i msgs))).length = 1 := rfl
    rw [hnil] at h1
    simp at h1
  have hT : ∀ p ∈ thinkReg.tagToExtension, ∀ a m r m',
      p.2.execute a m = (Except.ok r, m') →
      ConfuciusOrchestrator.resultTerminates r = false := by
    intro p hp a m r m' hex
    have hp' : p ∈ [(("think".data : Str), thinkExt)] := hp
    rw [List.mem_singleton] at hp'
    subst hp'
    have h1 : (Except.ok { success := true, output := "Thought recorded".data } :
        Except Str ExecutionResult) = Except.ok r := congrArg Prod.fst hex
    cases h1
    rfl
  exact c4_max_iterations c4llm c3summ c3clock thinkReg c4cfg 2 ("sys".data) ("task".data)
    rfl (by decide) hA hT

/-- The finish extension (`finish.ts`): its `parse` rejects blank content and
its `execute` succeeds with the message and a terminate signal. -/
def finishExt : IExtension :=
  { name := "finish".data
    description := "Signal that the task is complete.".data
    triggerTag := "finish".data
    signalsContinuation := some false
    parse := fun content =>
      if (trimStr content).length = 0 then ParseOutcome.nullResult
      else ParseOutcome.ok {
        tool := "finish".data
        parameters := [("message".data, trimStr content)]
        rawContent := some content }
    execute := fun action m =>
      (Except.ok {
        success := true
        output := ((action.parameters.find? (fun p => p.1 == "message".data)).map
          (·.2)).getD []
        metadata := some {
          terminate := true
          reason := some "completed".data
          finalMessage := some (((action.parameters.find?
            (fun p => p.1 == "message".data)).map (·.2)).getD []) } }, m) }

/-- A registry with the think and finish extensions registered. -/
def c2reg : ExtensionRegistry :=
  match ExtensionRegistry.empty.register thinkExt with
  | Except.ok r1 =>
    match r1.register finishExt with
    | Except.ok r2 => r2
    | Except.error _ => r1
  | Except.error _ => ExtensionRegistry.empty

/-- A model response with a continuation-signalling action before the finish
tag and another action after it. -/
def c2llm : Nat → List Message → Str :=
  fun _ _ => "<think>a</think><finish>done</finish><think>b</think>".data

def c2cfg : ConfuciusOrchestrator.LoopConfig :=
  { maxIterations := 5, compressionThreshold := 1000 }

def c2state : ConfuciusOrchestrator.OrchestratorState := { iteration := 0, running := true }

def c2mem1 : HierarchicalMemory :=
  if needsCompression witnessMemory c2cfg.compressionThreshold then
    ConfuciusOrchestrator.compressContext c3summ witnessMemory (c3clock 1)
  else witnessMemory

def c2out : Str :=
  ConfuciusOrchestrator.applyOutputCallbacks c2reg
    (c2llm 1 (ConfuciusOrchestrator.applyInputCallbacks c2reg (getMessages c2mem1)))

def c2acc0 : ConfuciusOrchestrator.BatchAcc :=
  { results := [], shouldContinue := false, shouldTerminate := false
    terminationMessage := []
    mem := addToRunnable c2mem1 (c3clock 1)
      { role := Role.assistant, content := c2out, timestamp := some (c3clock 1) } }

def c2thinkA1 : ParsedAction :=
  { tool := "think".data, parameters := [("thought".data, "a".data)] }

def c2finishA : ParsedAction :=
  { tool := "finish".data, parameters := [("message".data, "done".data)]
    rawContent := some "done".data }

def c2thinkA2 : ParsedAction :=
  { tool := "think".data, parameters := [("thought".data, "b".data)] }

theorem c2_terminate_signal_witness :
    (ConfuciusOrchestrator.runLoop c2llm c3summ c3clock c2reg c2cfg 3 c2state
      witnessMemory).1 =
      { iteration := 1
        running := false
        terminationReason := some ConfuciusOrchestrator.TerminationReason.completed
        result := some { success := true, output := "done".data } } ∧
    (ConfuciusOrchestrator.execBatch (c3clock 1) (parseOutput c2reg c2out)
      c2acc0).results.length = 2 := by
  have h := c2_terminate_signal c2llm c3summ c3clock c2reg c2cfg 2 c2state witnessMemory
    (c3clock 1) c2mem1 c2out [(thinkExt, c2thinkA1)] finishExt c2finishA
    [(thinkExt, c2thinkA2)] c2acc0 rfl (by decide) rfl rfl rfl rfl rfl rfl rfl
  constructor
  · exact congrArg Prod.fst h.2.2.2.1
  · rw [h.2.2.1]
    rfl

def c10cfg : ConfuciusOrchestrator.LoopConfig :=
  { maxIterations := 0, compressionThreshold := 50 }

/-- A second, different pair of oracles, to witness that they do not matter. -/
def c10llmB : Nat → List Message → Str := fun _ _ => "something else".data

def c10summB : List Message → Str := fun _ => "other summary".data

theorem c10_zero_max_iterations_witness :
    (ConfuciusOrchestrator.run c4llm c3summ c3clock thinkReg c10cfg ("sys".data)
      ("task".data)).1 =
      { iteration := 0
        running := false
        terminationReason := some ConfuciusOrchestrator.TerminationReason.max_iterations
        result := none } ∧
    ConfuciusOrchestrator.run c10llmB c10summB c3clock thinkReg c10cfg ("sys".data)
        ("task".data) =
      ConfuciusOrchestrator.run c4llm c3summ c3clock thinkReg c10cfg ("sys".data)
        ("task".data) := by
  have h := c10_zero_max_iterations c4llm c3summ c3clock thinkReg c10cfg ("sys".data)
    ("task".data) (by decide)
  exact ⟨h.1, h.2 c10llmB c10summB⟩

end Confucius
